import Mathlib

/-!
Verification development for the golden_valley_pipeline timecard
preprocessing core: a shallow embedding in Lean 4 of the data model and the
operations of `src/preprocess/inspect_clean_raw.py`,
`src/preprocess/merge_corrected_data.py` and
`src/transform/data_quality_check/global_qc.py`, together with theorems
settling the behavioural claims about normalization, duplicate resolution,
correction merging and quality flagging.

Datasets are embedded as lists of records (`Row`), one per DataFrame row;
pandas column operations become per-record functions mapped over the list.
Strings are embedded as lists of Unicode code points (`PyStr`) so that
Python's `str.strip` / `str.lower` / `str.upper` and single-character
`str.replace` become explicit, executable list functions whose
per-character action is plain arithmetic.
-/

/-! Embedding of `src/preprocess/inspect_clean_raw.py`. `USE_THREE_KEY` is
`True` in the source, so `KEYS = ["employee_id", "date", "clock_in"]`. The
module-level configuration constants (`MAPPINGS`, `CRITICAL_COLS`,
`DEDUP_STRATEGY`) are embedded as definitions; `DEDUP_STRATEGY` is passed
explicitly to `deduplicate_by_strategy` so every configured value can be
reasoned about. -/

/-! Embedding of `src/preprocess/merge_corrected_data.py`; its `KEYS` is
the same three-column composite key. -/

/-- Python/pandas strings, embedded as explicit lists of code points. -/
abbrev PyStr := List Nat

/-- Code-point list of a Lean string literal, used to write the concrete
strings appearing in the source (mapping tables, issue codes, ...). -/
def strLit (s : String) : PyStr := s.toList.map Char.toNat

/-- The whitespace code points removed by Python's `str.strip()`. -/
def isSpaceChar (c : Nat) : Bool :=
  c = 32 || c = 9 || c = 10 || c = 13 || c = 11 || c = 12

/-- Lowercasing of one ASCII character: the per-character action of pandas
`Series.str.lower()` on the ASCII data this pipeline handles. -/
def pyLowerChar (c : Nat) : Nat :=
  if 65 ≤ c ∧ c ≤ 90 then c + 32 else c

/-- Uppercasing of one ASCII character: the per-character action of pandas
`Series.str.upper()` on the ASCII data this pipeline handles. -/
def pyUpperChar (c : Nat) : Nat :=
  if 97 ≤ c ∧ c ≤ 122 then c - 32 else c

/-- `Series.str.replace(a, b, regex=False)` for single characters acts
independently on every character of every value. -/
def pyReplaceChar (a b c : Nat) : Nat :=
  if c = a then b else c

/-- Removal of leading whitespace (`str.lstrip()`). -/
def pyLstrip (s : PyStr) : PyStr := s.dropWhile isSpaceChar

/-- Removal of trailing whitespace (`str.rstrip()`). -/
def pyRstrip (s : PyStr) : PyStr := (s.reverse.dropWhile isSpaceChar).reverse

/-- `str.strip()`: remove leading and trailing whitespace. -/
def pyStrip (s : PyStr) : PyStr := pyRstrip (pyLstrip s)

/-- ASCII digit test, used when tokenizing date/time strings. -/
def isDigitChar (c : Nat) : Bool := 48 ≤ c && c ≤ 57

/-- Numeric value of a list of ASCII digit code points. -/
def natOfDigits (ds : List Nat) : Nat := ds.foldl (fun n c => 10 * n + (c - 48)) 0

/-- Tokenizer: maximal runs of digits of a string, left to right (`cur` is
the reversed run currently being read). -/
def dgGo : List Nat → List Nat → List (List Nat)
  | [], cur => if cur.isEmpty then [] else [cur.reverse]
  | c :: rest, cur =>
    if isDigitChar c then dgGo rest (c :: cur)
    else if cur.isEmpty then dgGo rest [] else cur.reverse :: dgGo rest []

/-- The maximal digit runs of a string, as numbers. -/
def digitGroups (s : PyStr) : List Nat := (dgGo s []).map natOfDigits

/-- Seconds in one day; `pd.Timestamp.normalize` floors to a multiple of it. -/
def secondsPerDay : Nat := 86400

/-- Timestamp of a validated (year, month, day, hour, minute, second)
tuple, as seconds. The calendar encoding is abstracted (months have 31
slots); only its arithmetic shape (whole days of 86400 seconds, minutes of
60 seconds) matters to the pipeline, never absolute epoch values. -/
def mkTimestamp (y mo d h mi sec : Nat) : Option Nat :=
  if 1 ≤ mo ∧ mo ≤ 12 ∧ 1 ≤ d ∧ d ≤ 31 ∧ h < 24 ∧ mi < 60 ∧ sec < 60 then
    some ((((y * 12 + (mo - 1)) * 31 + (d - 1)) * secondsPerDay) + h * 3600 + mi * 60 + sec)
  else none

/-- Model of scalar `pd.to_datetime(s, errors="coerce")` on an ISO-like
string: `YYYY-MM-DD`, optionally followed by `HH`, `HH:MM` or `HH:MM:SS`;
anything else coerces to NaT (`none`). Both source modules call this same
library function, so both embeddings share this definition. -/
def parseDatetime (s : PyStr) : Option Nat :=
  match digitGroups s with
  | [y, mo, d] => mkTimestamp y mo d 0 0 0
  | [y, mo, d, h] => mkTimestamp y mo d h 0 0
  | [y, mo, d, h, mi] => mkTimestamp y mo d h mi 0
  | [y, mo, d, h, mi, sec] => mkTimestamp y mo d h mi sec
  | _ => none

/-- A date/time-valued DataFrame cell: an already-parsed timestamp
(`datetime64` value), an unparsed raw string, or a missing value
(NaN/NaT). -/
inductive DtVal : Type
  | dt (t : Nat)
  | raw (s : PyStr)
  | null
deriving DecidableEq, Repr

/-- Scalar `pd.to_datetime(v, errors="coerce")` on a cell: datetimes pass
through, strings are parsed (failures coerce to NaT), missing stays NaT. -/
def toDatetime : DtVal → Option Nat
  | .dt t => some t
  | .raw s => parseDatetime s
  | .null => none

/-- `pd.isna` on a date/time cell. A raw (unparsed) string is not NA. -/
def dtIsNa : DtVal → Bool
  | .null => true
  | _ => false

/-- One row of timecard data: the ShiftRecord schema of the spec, with
`Option` for nullable cells. Numeric cells are embedded as integers (their
values are only ever tested for presence, never computed with). -/
structure Row : Type where
  employee_id : Option PyStr
  date : DtVal
  clock_in : DtVal
  clock_out : DtVal
  lunch_start : DtVal
  lunch_end : DtVal
  second_lunch_start : DtVal
  second_lunch_end : DtVal
  wage_rate : Option Int
  overtime_rate : Option Int
  doubletime_rate : Option Int
  pay_date : DtVal
  first_meal_waiver_signed : Option Bool
  second_meal_waiver_signed : Option Bool
  employment_status : Option PyStr
  exempt_status : Option PyStr
  total_pay_actual : Option Int
deriving DecidableEq, Repr

namespace InspectCleanRaw

/-- The composite key `(employee_id, date, clock_in)` of a row. -/
abbrev Key := Option PyStr × DtVal × DtVal

/-- Projection of the `KEYS` columns of a row. -/
def key (r : Row) : Key := (r.employee_id, r.date, r.clock_in)

/-- Number of occurrences of a composite key in a key column (the
group size `value_counts` reports). -/
def countKey (k : Key) (l : List Key) : Nat := l.countP (fun x => decide (x = k))

/-- `MAPPINGS["employment_status"]`. -/
def employmentStatusMap : List (PyStr × PyStr) :=
  [(strLit "fulltime", strLit "full_time"), (strLit "f_t", strLit "full_time"),
   (strLit "pt", strLit "part_time"), (strLit "parttime", strLit "part_time")]

/-- `MAPPINGS["exempt_status"]`. -/
def exemptStatusMap : List (PyStr × PyStr) :=
  [(strLit "nonexempt", strLit "non_exempt"), (strLit "non-exempt", strLit "non_exempt"),
   (strLit "n_ex", strLit "non_exempt"), (strLit "ne", strLit "non_exempt")]

/-- The textual cleaning chain of `standardize_text_columns` on one value:
strip, lower, then replace `-` (45), ` ` (32) and `/` (47) by `_` (95). -/
def cleanTextValue (s : PyStr) : PyStr :=
  List.map (pyReplaceChar 47 95)
    (List.map (pyReplaceChar 32 95)
      (List.map (pyReplaceChar 45 95)
        (List.map pyLowerChar (pyStrip s))))

/-- `Series.replace(map_dict)` on one value: an exact match against a
mapping key is replaced by the mapped value, otherwise the value is kept. -/
def applyMapping (m : List (PyStr × PyStr)) (s : PyStr) : PyStr :=
  match m.find? (fun q => decide (q.1 = s)) with
  | some q => q.2
  | none => s

/-- `standardize_text_columns` on one cell of a configured column: pandas
string operations and `replace` both propagate missing values unchanged. -/
def stdTextVal (m : List (PyStr × PyStr)) : Option PyStr → Option PyStr :=
  Option.map (fun s => applyMapping m (cleanTextValue s))

/-- `standardize_text_columns(df, MAPPINGS)` on one row: both configured
columns exist in the schema, so both are cleaned. -/
def standardize_text_columns (r : Row) : Row :=
  { r with employment_status := stdTextVal employmentStatusMap r.employment_status,
           exempt_status := stdTextVal exemptStatusMap r.exempt_status }

/-- `pd.to_datetime(v, errors="coerce").dt.normalize()` on one cell:
parse, then floor to midnight. -/
def normalizeDateVal (v : DtVal) : DtVal :=
  match toDatetime v with
  | some t => .dt (t - t % secondsPerDay)
  | none => .null

/-- `pd.to_datetime(v, errors="coerce").dt.floor("min")` on one cell:
parse, then floor to the whole minute. -/
def floorMinuteVal (v : DtVal) : DtVal :=
  match toDatetime v with
  | some t => .dt (t - t % 60)
  | none => .null

/-- `.astype(str)` on one `employee_id` cell: Python's `str()` of a
missing value is the literal string `"nan"`. -/
def astypeStr (v : Option PyStr) : PyStr := v.getD (strLit "nan")

/-- `normalize_key_columns` of `inspect_clean_raw.py` on one row:
`employee_id` is `astype(str)`-converted, stripped and uppercased; `date`
is parsed and normalized to midnight; `clock_in` (three-key mode) is
parsed and floored to the minute. -/
def normalize_key_columns (r : Row) : Row :=
  { r with employee_id := some (List.map pyUpperChar (pyStrip (astypeStr r.employee_id))),
           date := normalizeDateVal r.date,
           clock_in := floorMinuteVal r.clock_in }

/-- The normalization stage of the cleaning pipeline exactly as
`initial_inspection` / `clean_corrected_data` run it: text standardization
followed by key normalization. -/
def normalizeRecord (r : Row) : Row :=
  normalize_key_columns (standardize_text_columns r)

/-- Completeness score of `_keep_best_non_nulls`: the number of non-null
values among the `CRITICAL_COLS`, in source order. The embedded schema
contains every critical column, so `present_cols = CRITICAL_COLS`. -/
def nnScore (r : Row) : Nat :=
  (if dtIsNa r.clock_in then 0 else 1) +
  (if dtIsNa r.clock_out then 0 else 1) +
  (if dtIsNa r.lunch_start then 0 else 1) +
  (if dtIsNa r.lunch_end then 0 else 1) +
  (if dtIsNa r.second_lunch_start then 0 else 1) +
  (if dtIsNa r.second_lunch_end then 0 else 1) +
  (if r.wage_rate.isSome then 1 else 0) +
  (if r.overtime_rate.isSome then 1 else 0) +
  (if r.doubletime_rate.isSome then 1 else 0) +
  (if dtIsNa r.pay_date then 0 else 1) +
  (if r.first_meal_waiver_signed.isSome then 1 else 0) +
  (if r.second_meal_waiver_signed.isSome then 1 else 0) +
  (if r.employment_status.isSome then 1 else 0) +
  (if r.exempt_status.isSome then 1 else 0)

/-- The per-character action of the textual cleaning chain. -/
def cleanChar (c : Nat) : Nat :=
  pyReplaceChar 47 95 (pyReplaceChar 32 95 (pyReplaceChar 45 95 (pyLowerChar c)))

end InspectCleanRaw

/-- `drop_duplicates(subset=keyf, keep="last")`: a row survives exactly
when no later row has an equal key. pandas treats NaN key components as
equal for this operation, which the embedded key equality also does. -/
def dropDupKeepLast {α κ : Type} [DecidableEq κ] (keyf : α → κ) : List α → List α
  | [] => []
  | a :: t =>
    if t.any (fun x => decide (keyf x = keyf a)) then dropDupKeepLast keyf t
    else a :: dropDupKeepLast keyf t

/-- `duplicated(subset=keyf, keep=False).any()`: some key occurs twice. -/
def hasDupOn {α κ : Type} [DecidableEq κ] (keyf : α → κ) : List α → Bool
  | [] => false
  | a :: t => t.any (fun x => decide (keyf x = keyf a)) || hasDupOn keyf t

/-- Lexicographic comparison of code lists (the comparator underlying the
`sort_values` embedding). -/
def natListLE : List Nat → List Nat → Bool
  | [], _ => true
  | _ :: _, [] => false
  | a :: u, b :: v => if a < b then true else if a = b then natListLE u v else false

/-- Ordered insertion used by the sorting embedding. -/
def insertSorted {α : Type} (le : α → α → Bool) (a : α) : List α → List α
  | [] => [a]
  | b :: t => if le a b then a :: b :: t else b :: insertSorted le a t

/-- Insertion sort. The comparator used with it below is antisymmetric
(distinct rows carry distinct original indices), so the sorted result is
unique and stability is immaterial, matching the determinism requirement
on `sort_values`. -/
def insSort {α : Type} (le : α → α → Bool) : List α → List α
  | [] => []
  | a :: t => insertSorted le a (insSort le t)

/-- Sort-order code of an `employee_id` key cell. -/
def encOptStr : Option PyStr → List Nat
  | none => [0]
  | some s => 1 :: s

/-- Sort-order code of a date/time key cell. -/
def encDt : DtVal → List Nat
  | .dt t => [0, t]
  | .raw s => 1 :: s
  | .null => [2]

namespace InspectCleanRaw

/-- Sort-order code of a composite key; equal keys get equal codes, which
is all the duplicate-resolution results depend on (the relative order of
distinct keys only fixes the unspecified output order of the sort). -/
def keyEnc (k : Key) : List Nat :=
  encOptStr k.1 ++ 3 :: encDt k.2.1 ++ 3 :: encDt k.2.2

/-- Sort-order code of an index-annotated row for
`sort_values([*KEYS, "__nn_score__", "__orig_idx__"])`: key columns,
then completeness score, then original position. -/
def sortEnc (p : Nat × Row) : List Nat :=
  keyEnc (key p.2) ++ [nnScore p.2, p.1]

/-- The `sort_values` comparator of `_keep_best_non_nulls`. -/
def rowLe (p q : Nat × Row) : Bool := natListLE (sortEnc p) (sortEnc q)

/-- `_keep_best_non_nulls` before the helper columns are dropped: annotate
each row with its original index, sort by key, score and index, and keep
the last row of each key group. -/
def keepBestPairs (df : List Row) : List (Nat × Row) :=
  dropDupKeepLast (fun p => key p.2) (insSort rowLe df.enum)

/-- `_keep_best_non_nulls(df)`: the surviving rows, helper columns
dropped. -/
def keep_best_non_nulls (df : List Row) : List Row :=
  (keepBestPairs df).map Prod.snd

/-- `df.duplicated(subset=KEYS, keep=False).any()`. -/
def hasDupKeys (df : List Row) : Bool := hasDupOn key df

/-- The module-level `DEDUP_STRATEGY` constant of the source. -/
def DEDUP_STRATEGY : String := "keep_best_non_nulls"

/-- The `ValueError` text of the `error` strategy (the per-key preview
that pandas renders into the message is elided from the embedding). -/
def dupErrorMsg (datasetName : String) : String :=
  "[" ++ datasetName ++ "] duplicate keys detected on KEYS"

/-- `deduplicate_by_strategy(df, dataset_name)`. The module-level
`DEDUP_STRATEGY` string is passed explicitly as `strategy` so that every
configured value can be analysed; `raise ValueError` is embedded as
`Except.error`. Mirrors the source's control flow: datasets without
duplicate keys return immediately, before the strategy is examined. -/
def deduplicate_by_strategy (df : List Row) (datasetName : String)
    (strategy : String) : Except String (List Row) :=
  if ¬ hasDupKeys df then .ok df
  else if strategy = "error" then .error (dupErrorMsg datasetName)
  else if strategy = "keep_last" then .ok (dropDupKeepLast key df)
  else if strategy = "keep_best_non_nulls" then .ok (keep_best_non_nulls df)
  else .error ("Unknown DEDUP_STRATEGY: " ++ strategy)

/-- Whether a key has a missing component (`employee_id` NaN, `date` or
`clock_in` NaT): `DataFrame.value_counts` silently drops such rows. -/
def keyHasNa (k : Key) : Bool := k.1.isNone || dtIsNa k.2.1 || dtIsNa k.2.2

/-- The rows marked by `df.duplicated(subset=KEYS, keep=False)`. -/
def dupRows (df : List Row) : List Row :=
  df.filter (fun r => 2 ≤ countKey (key r) (df.map key))

/-- The duplicate rows that `value_counts` actually counts: those whose
key components are all non-null. -/
def dupRowsValid (df : List Row) : List Row :=
  (dupRows df).filter (fun r => ¬ keyHasNa (key r) = true)

/-- First-occurrence deduplication (the distinct grouping keys). -/
def dedupFirst {κ : Type} [DecidableEq κ] (l : List κ) : List κ :=
  (dropDupKeepLast id l.reverse).reverse

/-- `duplicate_key_report(df, ...)` (the returned dataframe): group the
duplicate-key rows by key via `value_counts` — which drops rows with any
null key component — and sort the (key, count) groups by descending
count. -/
def duplicate_key_report (df : List Row) : List (Key × Nat) :=
  let ks := (dupRowsValid df).map key
  insSort (fun a b => decide (b.2 ≤ a.2))
    ((dedupFirst ks).map (fun k => (k, countKey k ks)))

end InspectCleanRaw

namespace MergeCorrected

/-- `normalize_key_columns` of `merge_corrected_data.py` on one row. The
date and clock_in treatment is textually identical to the cleaning
pipeline's (both call `pd.to_datetime(..., errors="coerce")` with
`.dt.normalize()` resp. `.dt.floor("min")`), so those cell functions are
shared; `employee_id` however uses `.astype("string")`, which keeps
missing values missing instead of stringifying them. -/
def normalize_key_columns (r : Row) : Row :=
  { r with employee_id := Option.map (fun s => List.map pyUpperChar (pyStrip s)) r.employee_id,
           date := InspectCleanRaw.normalizeDateVal r.date,
           clock_in := InspectCleanRaw.floorMinuteVal r.clock_in }

/-- `append_and_deduplicate(df_clean, df_corr)`: concatenate (corrected
last) and drop key-duplicates keeping the last occurrence
(`reset_index(drop=True)` has no observable effect in this embedding). -/
def append_and_deduplicate (df_clean df_corr : List Row) : List Row :=
  dropDupKeepLast InspectCleanRaw.key (df_clean ++ df_corr)

/-- First record with the given composite key, the record a unique-keyed
dataset associates to that key. -/
def lookupKey (df : List Row) (k : InspectCleanRaw.Key) : Option Row :=
  df.find? (fun r => decide (InspectCleanRaw.key r = k))

end MergeCorrected

namespace GlobalQC

/-- Embedding of `flag_missing_critical_fields` of `global_qc.py`: the
issue list accumulated for one row, in source order. `pd.isna` is
`dtIsNa` on date/time cells and `Option.isNone` on the rest. -/
def rowIssues (r : Row) : List String :=
  (if dtIsNa r.clock_in then ["missing clock_in"] else []) ++
  (if dtIsNa r.clock_out then ["missing clock_out"] else []) ++
  (if !dtIsNa r.lunch_start && dtIsNa r.lunch_end then
    ["missing lunch_end (partial lunch)"] else []) ++
  (if !dtIsNa r.lunch_end && dtIsNa r.lunch_start then
    ["missing lunch_start (partial lunch)"] else []) ++
  (if !dtIsNa r.second_lunch_start && dtIsNa r.second_lunch_end then
    ["missing second_lunch_end (partial second lunch)"] else []) ++
  (if !dtIsNa r.second_lunch_end && dtIsNa r.second_lunch_start then
    ["missing second_lunch_start (partial second lunch)"] else []) ++
  (if r.wage_rate.isNone then ["missing wage_rate"] else []) ++
  (if r.total_pay_actual.isNone then ["missing total_pay_actual"] else []) ++
  (if dtIsNa r.pay_date then ["missing pay_date"] else []) ++
  (if r.employment_status.isNone then ["missing employment_status"] else []) ++
  (if r.exempt_status.isNone then ["missing exempt_status"] else []) ++
  (if r.employee_id.isNone then ["missing employee_id"] else []) ++
  (if dtIsNa r.date then ["missing work date"] else [])

/-- `flag_missing_critical_fields(df)`: every row is kept and annotated
with its `data_issues` cell — the issue list, or None when empty. -/
def flag_missing_critical_fields (df : List Row) : List (Row × Option (List String)) :=
  df.map (fun r => (r, if rowIssues r = [] then none else some (rowIssues r)))

/-- `fill_missing_waivers_with_false` on one row: `fillna(False)` on both
waiver columns. -/
def fill_missing_waivers_with_false (r : Row) : Row :=
  { r with first_meal_waiver_signed := some (r.first_meal_waiver_signed.getD false),
           second_meal_waiver_signed := some (r.second_meal_waiver_signed.getD false) }

/-- The fixed rule table of the spec (predicate, issue code), rules 1-13
in order: required times, the four partial-lunch pairings, required pay
fields, required employee info. Rule 13 checks the `date` column; its
issue code in the source reads "missing work date". -/
def specRules : List ((Row → Bool) × String) :=
  [(fun r => dtIsNa r.clock_in, "missing clock_in"),
   (fun r => dtIsNa r.clock_out, "missing clock_out"),
   (fun r => !dtIsNa r.lunch_start && dtIsNa r.lunch_end,
     "missing lunch_end (partial lunch)"),
   (fun r => !dtIsNa r.lunch_end && dtIsNa r.lunch_start,
     "missing lunch_start (partial lunch)"),
   (fun r => !dtIsNa r.second_lunch_start && dtIsNa r.second_lunch_end,
     "missing second_lunch_end (partial second lunch)"),
   (fun r => !dtIsNa r.second_lunch_end && dtIsNa r.second_lunch_start,
     "missing second_lunch_start (partial second lunch)"),
   (fun r => r.wage_rate.isNone, "missing wage_rate"),
   (fun r => r.total_pay_actual.isNone, "missing total_pay_actual"),
   (fun r => dtIsNa r.pay_date, "missing pay_date"),
   (fun r => r.employment_status.isNone, "missing employment_status"),
   (fun r => r.exempt_status.isNone, "missing exempt_status"),
   (fun r => r.employee_id.isNone, "missing employee_id"),
   (fun r => dtIsNa r.date, "missing work date")]

end GlobalQC

/-- A row with every cell missing, the simplest concrete record. -/
def emptyRow : Row :=
  { employee_id := none, date := .null, clock_in := .null, clock_out := .null,
    lunch_start := .null, lunch_end := .null, second_lunch_start := .null,
    second_lunch_end := .null, wage_rate := none, overtime_rate := none,
    doubletime_rate := none, pay_date := .null, first_meal_waiver_signed := none,
    second_meal_waiver_signed := none, employment_status := none,
    exempt_status := none, total_pay_actual := none }

/-- The spec's flagging scenario: `clock_in` present, `clock_out` missing,
both lunch fields absent, every other checked field present. -/
def scenarioRow : Row :=
  { emptyRow with
      employee_id := some (strLit "E1"),
      date := .dt 0,
      clock_in := .dt 28800,
      wage_rate := some 15,
      total_pay_actual := some 120,
      pay_date := .dt 0,
      employment_status := some (strLit "full_time"),
      exempt_status := some (strLit "non_exempt") }

/-- Concrete keyed rows for the merge and resolver witnesses. -/
def rowA : Row :=
  { emptyRow with
      employee_id := some (strLit "A"),
      date := .dt 0,
      clock_in := .dt 0 }

def rowB : Row :=
  { emptyRow with
      employee_id := some (strLit "B"),
      date := .dt 0,
      clock_in := .dt 0 }

def rowB2 : Row := { rowB with wage_rate := some 15 }

def rowC : Row :=
  { emptyRow with
      employee_id := some (strLit "C"),
      date := .dt 0,
      clock_in := .dt 0 }

/-- A row with a non-missing employee id, for the key-normalizer witness. -/
def rowE1 : Row := { emptyRow with employee_id := some (strLit "e1") }

theorem pyLowerChar_idem (c : Nat) : pyLowerChar (pyLowerChar c) = pyLowerChar c := by
  unfold pyLowerChar
  split <;> (try split) <;> omega

theorem pyUpperChar_idem (c : Nat) : pyUpperChar (pyUpperChar c) = pyUpperChar c := by
  unfold pyUpperChar
  split <;> (try split) <;> omega

theorem isSpaceChar_pyLowerChar (c : Nat) : isSpaceChar (pyLowerChar c) = isSpaceChar c := by
  unfold pyLowerChar isSpaceChar
  split <;> [skip; rfl]
  have h1 : (decide (c + 32 = 32) || decide (c + 32 = 9) || decide (c + 32 = 10) ||
      decide (c + 32 = 13) || decide (c + 32 = 11) || decide (c + 32 = 12)) = false := by
    simp only [Bool.or_eq_false_iff, decide_eq_false_iff_not]
    omega
  have h2 : (decide (c = 32) || decide (c = 9) || decide (c = 10) ||
      decide (c = 13) || decide (c = 11) || decide (c = 12)) = false := by
    simp only [Bool.or_eq_false_iff, decide_eq_false_iff_not]
    omega
  rw [h1, h2]

theorem isSpaceChar_pyUpperChar (c : Nat) : isSpaceChar (pyUpperChar c) = isSpaceChar c := by
  unfold pyUpperChar isSpaceChar
  split <;> [skip; rfl]
  have h1 : (decide (c - 32 = 32) || decide (c - 32 = 9) || decide (c - 32 = 10) ||
      decide (c - 32 = 13) || decide (c - 32 = 11) || decide (c - 32 = 12)) = false := by
    simp only [Bool.or_eq_false_iff, decide_eq_false_iff_not]
    omega
  have h2 : (decide (c = 32) || decide (c = 9) || decide (c = 10) ||
      decide (c = 13) || decide (c = 11) || decide (c = 12)) = false := by
    simp only [Bool.or_eq_false_iff, decide_eq_false_iff_not]
    omega
  rw [h1, h2]

theorem dropWhile_self_idem {α : Type} (p : α → Bool) (l : List α) :
    List.dropWhile p (List.dropWhile p l) = List.dropWhile p l := by
  induction l with
  | nil => rfl
  | cons a t ih =>
    by_cases h : p a = true
    · simp [List.dropWhile_cons, h, ih]
    · simp [List.dropWhile_cons, h]

theorem dropWhile_length_le {α : Type} (p : α → Bool) (l : List α) :
    (List.dropWhile p l).length ≤ l.length := by
  induction l with
  | nil => simp
  | cons a t ih =>
    by_cases h : p a = true <;> simp [List.dropWhile_cons, h]
    omega

theorem dropWhile_cons_self {α : Type} {p : α → Bool} {a : α} {t : List α}
    (h : List.dropWhile p (a :: t) = a :: t) : p a = false := by
  cases hb : p a with
  | false => rfl
  | true =>
    rw [List.dropWhile_cons, if_pos hb] at h
    have h1 := dropWhile_length_le p t
    have h2 := congrArg List.length h
    simp at h2
    omega

theorem dropWhile_eq_self_of_append {α : Type} {p : α → Bool} {x r m : List α}
    (hm : List.dropWhile p m = m) (hx : x ++ r = m) : List.dropWhile p x = x := by
  cases x with
  | nil => rfl
  | cons a t =>
    have hm2 : List.dropWhile p (a :: (t ++ r)) = a :: (t ++ r) := by
      rw [← List.cons_append, hx]; exact hm
    have ha : p a = false := dropWhile_cons_self hm2
    simp [List.dropWhile_cons, ha]

theorem pyRstrip_append_eq (m : PyStr) : ∃ r, pyRstrip m ++ r = m := by
  obtain ⟨t, ht⟩ := @List.dropWhile_suffix Nat m.reverse isSpaceChar
  refine ⟨t.reverse, ?_⟩
  have h := congrArg List.reverse ht
  simpa [pyRstrip, List.reverse_append] using h

theorem pyLstrip_idem (s : PyStr) : pyLstrip (pyLstrip s) = pyLstrip s :=
  dropWhile_self_idem isSpaceChar s

theorem pyRstrip_idem (s : PyStr) : pyRstrip (pyRstrip s) = pyRstrip s := by
  unfold pyRstrip
  rw [List.reverse_reverse, dropWhile_self_idem]

theorem pyLstrip_pyRstrip {m : PyStr} (h : pyLstrip m = m) :
    pyLstrip (pyRstrip m) = pyRstrip m := by
  obtain ⟨r, hr⟩ := pyRstrip_append_eq m
  exact dropWhile_eq_self_of_append h hr

theorem pyStrip_idem (s : PyStr) : pyStrip (pyStrip s) = pyStrip s := by
  have h1 : pyStrip (pyStrip s) = pyRstrip (pyLstrip (pyStrip s)) := rfl
  rw [h1]
  show pyRstrip (pyLstrip (pyRstrip (pyLstrip s))) = pyRstrip (pyLstrip s)
  rw [pyLstrip_pyRstrip (pyLstrip_idem s), pyRstrip_idem]

theorem dropWhile_map_of_self {g : Nat → Nat}
    (hg : ∀ c, isSpaceChar c = false → isSpaceChar (g c) = false) {y : PyStr}
    (hy : List.dropWhile isSpaceChar y = y) :
    List.dropWhile isSpaceChar (y.map g) = y.map g := by
  cases y with
  | nil => rfl
  | cons a t =>
    have ha := dropWhile_cons_self hy
    simp [List.dropWhile_cons, hg a ha]

theorem pyLstrip_map {g : Nat → Nat}
    (hg : ∀ c, isSpaceChar c = false → isSpaceChar (g c) = false) {y : PyStr}
    (hy : pyLstrip y = y) : pyLstrip (y.map g) = y.map g :=
  dropWhile_map_of_self hg hy

theorem pyRstrip_map {g : Nat → Nat}
    (hg : ∀ c, isSpaceChar c = false → isSpaceChar (g c) = false) {y : PyStr}
    (hy : pyRstrip y = y) : pyRstrip (y.map g) = y.map g := by
  have hy2 : List.dropWhile isSpaceChar y.reverse = y.reverse := by
    have h := congrArg List.reverse hy
    rw [pyRstrip, List.reverse_reverse] at h
    exact h
  have h3 := dropWhile_map_of_self hg hy2
  rw [List.map_reverse] at h3
  rw [pyRstrip, h3, List.reverse_reverse]

theorem pyStrip_fix_lstrip (s : PyStr) : pyLstrip (pyStrip s) = pyStrip s :=
  pyLstrip_pyRstrip (pyLstrip_idem s)

theorem pyStrip_fix_rstrip (s : PyStr) : pyRstrip (pyStrip s) = pyStrip s :=
  pyRstrip_idem (pyLstrip s)

theorem pyStrip_map_pyStrip {g : Nat → Nat}
    (hg : ∀ c, isSpaceChar c = false → isSpaceChar (g c) = false) (s : PyStr) :
    pyStrip (List.map g (pyStrip s)) = List.map g (pyStrip s) := by
  have h1 := pyLstrip_map hg (pyStrip_fix_lstrip s)
  have h2 := pyRstrip_map hg (pyStrip_fix_rstrip s)
  show pyRstrip (pyLstrip (List.map g (pyStrip s))) = List.map g (pyStrip s)
  rw [h1, h2]

namespace InspectCleanRaw

theorem cleanTextValue_eq_map (s : PyStr) :
    cleanTextValue s = List.map cleanChar (pyStrip s) := by
  unfold cleanTextValue
  rw [List.map_map, List.map_map, List.map_map]
  rfl

theorem cleanChar_nonspace (c : Nat) (h : isSpaceChar c = false) :
    isSpaceChar (cleanChar c) = false := by
  have hl : isSpaceChar (pyLowerChar c) = false := by
    rw [isSpaceChar_pyLowerChar]; exact h
  unfold cleanChar pyReplaceChar
  split_ifs <;> first | exact hl | decide

theorem pyLowerChar_not_upper (c : Nat) : ¬(65 ≤ pyLowerChar c ∧ pyLowerChar c ≤ 90) := by
  unfold pyLowerChar
  split <;> omega

theorem cleanChar_inert (e : Nat) (h1 : ¬(65 ≤ e ∧ e ≤ 90)) (h2 : ¬e = 45)
    (h3 : ¬e = 32) (h4 : ¬e = 47) : cleanChar e = e := by
  unfold cleanChar pyReplaceChar pyLowerChar
  rw [if_neg h1, if_neg h2, if_neg h3, if_neg h4]

theorem cleanChar_cases (c : Nat) : cleanChar c = 95 ∨
    (cleanChar c = pyLowerChar c ∧ ¬pyLowerChar c = 45 ∧ ¬pyLowerChar c = 32 ∧
      ¬pyLowerChar c = 47) := by
  unfold cleanChar pyReplaceChar
  by_cases h45 : pyLowerChar c = 45
  · left; rw [if_pos h45]; decide
  · rw [if_neg h45]
    by_cases h32 : pyLowerChar c = 32
    · left; rw [if_pos h32]; decide
    · rw [if_neg h32]
      by_cases h47 : pyLowerChar c = 47
      · left; rw [if_pos h47]
      · rw [if_neg h47]
        exact Or.inr ⟨rfl, h45, h32, h47⟩

theorem cleanChar_idem (c : Nat) : cleanChar (cleanChar c) = cleanChar c := by
  rcases cleanChar_cases c with h | ⟨h, h2, h3, h4⟩
  · rw [h]; decide
  · rw [h]
    exact cleanChar_inert _ (pyLowerChar_not_upper c) h2 h3 h4

theorem cleanTextValue_idem (s : PyStr) :
    cleanTextValue (cleanTextValue s) = cleanTextValue s := by
  rw [cleanTextValue_eq_map, cleanTextValue_eq_map,
    pyStrip_map_pyStrip (fun c h => cleanChar_nonspace c h), List.map_map]
  exact List.map_congr_left (fun a _ => cleanChar_idem a)

theorem stdTextVal_idem (m : List (PyStr × PyStr))
    (hm : ∀ q ∈ m, cleanTextValue q.2 = q.2 ∧
      m.find? (fun p => decide (p.1 = q.2)) = none) (v : Option PyStr) :
    stdTextVal m (stdTextVal m v) = stdTextVal m v := by
  cases v with
  | none => rfl
  | some s =>
    show some (applyMapping m (cleanTextValue (applyMapping m (cleanTextValue s)))) =
      some (applyMapping m (cleanTextValue s))
    rcases hf : m.find? (fun q => decide (q.1 = cleanTextValue s)) with _ | q
    · have h1 : applyMapping m (cleanTextValue s) = cleanTextValue s := by
        unfold applyMapping; rw [hf]
      rw [h1, cleanTextValue_idem, h1]
    · have hq := hm q (List.mem_of_find?_eq_some hf)
      have h1 : applyMapping m (cleanTextValue s) = q.2 := by
        unfold applyMapping; rw [hf]
      have h2 : applyMapping m q.2 = q.2 := by
        unfold applyMapping; rw [hq.2]
      rw [h1, hq.1, h2]

theorem employmentStatusMap_canon :
    ∀ q ∈ employmentStatusMap, cleanTextValue q.2 = q.2 ∧
      employmentStatusMap.find? (fun p => decide (p.1 = q.2)) = none := by decide

theorem exemptStatusMap_canon :
    ∀ q ∈ exemptStatusMap, cleanTextValue q.2 = q.2 ∧
      exemptStatusMap.find? (fun p => decide (p.1 = q.2)) = none := by decide

theorem upperChar_nonspace (c : Nat) (h : isSpaceChar c = false) :
    isSpaceChar (pyUpperChar c) = false := by
  rw [isSpaceChar_pyUpperChar]; exact h

theorem normEmployeeId_idem (v : Option PyStr) :
    some (List.map pyUpperChar (pyStrip (astypeStr
      (some (List.map pyUpperChar (pyStrip (astypeStr v))))))) =
    some (List.map pyUpperChar (pyStrip (astypeStr v))) := by
  have h0 : astypeStr (some (List.map pyUpperChar (pyStrip (astypeStr v)))) =
      List.map pyUpperChar (pyStrip (astypeStr v)) := rfl
  rw [h0, pyStrip_map_pyStrip upperChar_nonspace, List.map_map]
  exact congrArg some (List.map_congr_left (fun a _ => pyUpperChar_idem a))

theorem normalizeDateVal_idem (v : DtVal) :
    normalizeDateVal (normalizeDateVal v) = normalizeDateVal v := by
  rcases h : toDatetime v with _ | t
  · have h1 : normalizeDateVal v = DtVal.null := by
      unfold normalizeDateVal; rw [h]
    rw [h1]
    rfl
  · have h1 : normalizeDateVal v = DtVal.dt (t - t % secondsPerDay) := by
      unfold normalizeDateVal; rw [h]
    have hm : (t - t % secondsPerDay) % secondsPerDay = 0 := by
      unfold secondsPerDay; omega
    rw [h1]
    show DtVal.dt ((t - t % secondsPerDay) - (t - t % secondsPerDay) % secondsPerDay) =
      DtVal.dt (t - t % secondsPerDay)
    rw [hm, Nat.sub_zero]

theorem floorMinuteVal_idem (v : DtVal) :
    floorMinuteVal (floorMinuteVal v) = floorMinuteVal v := by
  rcases h : toDatetime v with _ | t
  · have h1 : floorMinuteVal v = DtVal.null := by
      unfold floorMinuteVal; rw [h]
    rw [h1]
    rfl
  · have h1 : floorMinuteVal v = DtVal.dt (t - t % 60) := by
      unfold floorMinuteVal; rw [h]
    have hm : (t - t % 60) % 60 = 0 := by omega
    rw [h1]
    show DtVal.dt ((t - t % 60) - (t - t % 60) % 60) = DtVal.dt (t - t % 60)
    rw [hm, Nat.sub_zero]

end InspectCleanRaw

theorem anyKey_iff {α κ : Type} [DecidableEq κ] (keyf : α → κ) (b : α) (t : List α) :
    t.any (fun x => decide (keyf x = keyf b)) = true ↔ keyf b ∈ t.map keyf := by
  rw [List.any_eq_true]
  constructor
  · rintro ⟨x, hx, hxk⟩
    simp only [decide_eq_true_eq] at hxk
    exact hxk ▸ List.mem_map_of_mem keyf hx
  · intro hmem
    obtain ⟨x, hx, hxk⟩ := List.mem_map.mp hmem
    exact ⟨x, hx, by simp [hxk]⟩

theorem mem_dropDupKeepLast_subset {α κ : Type} [DecidableEq κ] (keyf : α → κ)
    (l : List α) : ∀ a ∈ dropDupKeepLast keyf l, a ∈ l := by
  induction l with
  | nil => simp [dropDupKeepLast]
  | cons b t ih =>
    intro a ha
    by_cases h : t.any (fun x => decide (keyf x = keyf b)) = true
    · rw [dropDupKeepLast, if_pos h] at ha
      exact List.mem_cons_of_mem b (ih a ha)
    · rw [dropDupKeepLast, if_neg h] at ha
      rcases List.mem_cons.mp ha with h1 | h1
      · rw [h1]; exact List.mem_cons_self b t
      · exact List.mem_cons_of_mem b (ih a h1)

theorem mem_keys_dropDupKeepLast {α κ : Type} [DecidableEq κ] (keyf : α → κ)
    (l : List α) (k : κ) :
    k ∈ (dropDupKeepLast keyf l).map keyf ↔ k ∈ l.map keyf := by
  induction l with
  | nil => simp [dropDupKeepLast]
  | cons b t ih =>
    by_cases h : t.any (fun x => decide (keyf x = keyf b)) = true
    · rw [dropDupKeepLast, if_pos h]
      rw [ih]
      have hbt : keyf b ∈ t.map keyf := (anyKey_iff keyf b t).mp h
      simp only [List.map_cons, List.mem_cons]
      constructor
      · exact Or.inr
      · rintro (rfl | h2)
        · exact hbt
        · exact h2
    · rw [dropDupKeepLast, if_neg h]
      simp only [List.map_cons, List.mem_cons, ih]

theorem nodup_keys_dropDupKeepLast {α κ : Type} [DecidableEq κ] (keyf : α → κ)
    (l : List α) : ((dropDupKeepLast keyf l).map keyf).Nodup := by
  induction l with
  | nil => simp [dropDupKeepLast]
  | cons b t ih =>
    by_cases h : t.any (fun x => decide (keyf x = keyf b)) = true
    · rw [dropDupKeepLast, if_pos h]; exact ih
    · rw [dropDupKeepLast, if_neg h]
      simp only [List.map_cons, List.nodup_cons]
      refine ⟨?_, ih⟩
      intro hmem
      have : keyf b ∈ t.map keyf := (mem_keys_dropDupKeepLast keyf t (keyf b)).mp hmem
      exact h ((anyKey_iff keyf b t).mpr this)

theorem mem_dropDupKeepLast_of_unique {α κ : Type} [DecidableEq κ] {keyf : α → κ}
    {l : List α} {a : α} (ha : a ∈ l) (hc : (l.map keyf).count (keyf a) = 1) :
    a ∈ dropDupKeepLast keyf l := by
  induction l with
  | nil => cases ha
  | cons b t ih =>
    rw [List.map_cons, List.count_cons] at hc
    rcases List.mem_cons.mp ha with rfl | hat
    · simp only [beq_self_eq_true, if_pos] at hc
      have hc0 : (t.map keyf).count (keyf a) = 0 := by omega
      have hnot : keyf a ∉ t.map keyf := by
        intro hmem
        have := List.count_pos_iff.mpr hmem
        omega
      have h : ¬ t.any (fun x => decide (keyf x = keyf a)) = true := by
        intro hany
        exact hnot ((anyKey_iff keyf a t).mp hany)
      rw [dropDupKeepLast, if_neg h]
      exact List.mem_cons_self a (dropDupKeepLast keyf t)
    · have hmem : keyf a ∈ t.map keyf := List.mem_map_of_mem keyf hat
      have hpos := List.count_pos_iff.mpr hmem
      have hne : (keyf b == keyf a) = false := by
        by_cases hbe : keyf b = keyf a
        · rw [hbe] at hc; simp at hc; omega
        · exact beq_false_of_ne hbe
      rw [hne] at hc
      simp at hc
      have ha2 := ih hat hc
      by_cases h : t.any (fun x => decide (keyf x = keyf b)) = true
      · rw [dropDupKeepLast, if_pos h]; exact ha2
      · rw [dropDupKeepLast, if_neg h]; exact List.mem_cons_of_mem b ha2

theorem mem_dropDupKeepLast_iff {α κ : Type} [DecidableEq κ] {keyf : α → κ}
    {l : List α} {p : α} :
    p ∈ dropDupKeepLast keyf l ↔
      ∃ l1 l2, l = l1 ++ p :: l2 ∧ ∀ q ∈ l2, ¬ keyf q = keyf p := by
  induction l with
  | nil =>
    simp only [dropDupKeepLast, List.not_mem_nil, false_iff]
    rintro ⟨l1, l2, h, -⟩
    exact (List.cons_ne_nil p l2) (List.append_eq_nil.mp h.symm).2
  | cons b t ih =>
    by_cases h : t.any (fun x => decide (keyf x = keyf b)) = true
    · rw [dropDupKeepLast, if_pos h, ih]
      constructor
      · rintro ⟨l1, l2, hsplit, hnone⟩
        exact ⟨b :: l1, l2, by rw [hsplit, List.cons_append], hnone⟩
      · rintro ⟨l1, l2, hsplit, hnone⟩
        cases l1 with
        | nil =>
          simp only [List.nil_append] at hsplit
          injection hsplit with h1 h2
          rw [List.any_eq_true] at h
          obtain ⟨x, hx, hxk⟩ := h
          simp only [decide_eq_true_eq] at hxk
          subst h1
          rw [← h2] at hnone
          exact absurd hxk (hnone x hx)
        | cons c l1 =>
          rw [List.cons_append] at hsplit
          injection hsplit with h1 h2
          exact ⟨l1, l2, h2, hnone⟩
    · rw [dropDupKeepLast, if_neg h]
      constructor
      · intro hp
        rcases List.mem_cons.mp hp with rfl | hp2
        · refine ⟨[], t, rfl, ?_⟩
          intro q hq hkq
          exact h (List.any_eq_true.mpr ⟨q, hq, by simp [hkq]⟩)
        · obtain ⟨l1, l2, hsplit, hnone⟩ := ih.mp hp2
          exact ⟨b :: l1, l2, by rw [hsplit, List.cons_append], hnone⟩
      · rintro ⟨l1, l2, hsplit, hnone⟩
        cases l1 with
        | nil =>
          simp only [List.nil_append] at hsplit
          injection hsplit with h1 h2
          rw [h1]
          exact List.mem_cons_self p (dropDupKeepLast keyf t)
        | cons c l1 =>
          rw [List.cons_append] at hsplit
          injection hsplit with h1 h2
          exact List.mem_cons_of_mem b (ih.mpr ⟨l1, l2, h2, hnone⟩)

theorem insertSorted_perm {α : Type} (le : α → α → Bool) (a : α) (l : List α) :
    (insertSorted le a l).Perm (a :: l) := by
  induction l with
  | nil => exact List.Perm.refl _
  | cons b t ih =>
    by_cases h : le a b = true
    · rw [insertSorted, if_pos h]
    · rw [insertSorted, if_neg h]
      exact (ih.cons b).trans (List.Perm.swap a b t)

theorem insSort_perm {α : Type} (le : α → α → Bool) (l : List α) :
    (insSort le l).Perm l := by
  induction l with
  | nil => exact List.Perm.refl _
  | cons a t ih =>
    exact (insertSorted_perm le a (insSort le t)).trans (ih.cons a)

theorem insertSorted_pairwise {α : Type} {le : α → α → Bool}
    (htot : ∀ a b, le a b = true ∨ le b a = true)
    (htrans : ∀ {a b c}, le a b = true → le b c = true → le a c = true)
    {a : α} {l : List α} (hl : List.Pairwise (fun x y => le x y = true) l) :
    List.Pairwise (fun x y => le x y = true) (insertSorted le a l) := by
  induction l with
  | nil => exact List.pairwise_singleton _ a
  | cons b t ih =>
    rcases List.pairwise_cons.mp hl with ⟨hb, ht⟩
    by_cases h : le a b = true
    · rw [insertSorted, if_pos h]
      refine List.pairwise_cons.mpr ⟨?_, hl⟩
      intro x hx
      rcases List.mem_cons.mp hx with rfl | hx2
      · exact h
      · exact htrans h (hb x hx2)
    · rw [insertSorted, if_neg h]
      refine List.pairwise_cons.mpr ⟨?_, ih ht⟩
      intro x hx
      have hx2 := (insertSorted_perm le a t).mem_iff.mp hx
      rcases List.mem_cons.mp hx2 with h1 | hx3
      · subst h1
        rcases htot x b with h2 | h2
        · exact absurd h2 h
        · exact h2
      · exact hb x hx3

theorem insSort_pairwise {α : Type} {le : α → α → Bool}
    (htot : ∀ a b, le a b = true ∨ le b a = true)
    (htrans : ∀ {a b c}, le a b = true → le b c = true → le a c = true)
    (l : List α) :
    List.Pairwise (fun x y => le x y = true) (insSort le l) := by
  induction l with
  | nil => exact List.Pairwise.nil
  | cons a t ih => exact insertSorted_pairwise htot htrans ih

theorem natListLE_nil_false {a : Nat} {u : List Nat} :
    natListLE (a :: u) [] = false := rfl

theorem natListLE_total (u v : List Nat) :
    natListLE u v = true ∨ natListLE v u = true := by
  induction u generalizing v with
  | nil => left; rfl
  | cons a u ih =>
    cases v with
    | nil => right; rfl
    | cons b v =>
      rcases Nat.lt_trichotomy a b with h | h | h
      · left; simp [natListLE, h]
      · subst h
        rcases ih v with h2 | h2
        · left; simp [natListLE, h2]
        · right; simp [natListLE, h2]
      · right; simp [natListLE, h]

theorem natListLE_trans {u v w : List Nat} (h1 : natListLE u v = true)
    (h2 : natListLE v w = true) : natListLE u w = true := by
  induction u generalizing v w with
  | nil => rfl
  | cons a u ih =>
    cases v with
    | nil => rw [natListLE_nil_false] at h1; cases h1
    | cons b v =>
      cases w with
      | nil => rw [natListLE_nil_false] at h2; cases h2
      | cons c w =>
        by_cases hab : a < b
        · by_cases hbc : b < c
          · simp [natListLE, Nat.lt_trans hab hbc]
          · by_cases hbc2 : b = c
            · subst hbc2; simp [natListLE, hab]
            · simp [natListLE, hbc, hbc2] at h2
        · by_cases hab2 : a = b
          · subst hab2
            rw [natListLE, if_neg hab, if_pos rfl] at h1
            by_cases hbc : a < c
            · simp [natListLE, hbc]
            · by_cases hbc2 : a = c
              · subst hbc2
                rw [natListLE, if_neg hbc, if_pos rfl] at h2 ⊢
                exact ih h1 h2
              · simp [natListLE, hbc, hbc2] at h2
          · simp [natListLE, hab, hab2] at h1

theorem natListLE_antisym {u v : List Nat} (h1 : natListLE u v = true)
    (h2 : natListLE v u = true) : u = v := by
  induction u generalizing v with
  | nil =>
    cases v with
    | nil => rfl
    | cons b v => rw [natListLE_nil_false] at h2; cases h2
  | cons a u ih =>
    cases v with
    | nil => rw [natListLE_nil_false] at h1; cases h1
    | cons b v =>
      by_cases hab : a < b
      · simp [natListLE, Nat.lt_asymm hab, Nat.ne_of_gt hab] at h2
      · by_cases hab2 : a = b
        · subst hab2
          rw [natListLE, if_neg hab, if_pos rfl] at h1 h2
          rw [ih h1 h2]
        · simp [natListLE, hab, hab2] at h1

theorem natListLE_append_same (w u v : List Nat) :
    natListLE (w ++ u) (w ++ v) = natListLE u v := by
  induction w with
  | nil => rfl
  | cons a w ih => simp [natListLE, Nat.lt_irrefl, ih]

theorem natListLE_pair (s1 i1 s2 i2 : Nat) :
    natListLE [s1, i1] [s2, i2] = true ↔ (s1 < s2 ∨ (s1 = s2 ∧ i1 ≤ i2)) := by
  by_cases h1 : s1 < s2
  · simp [natListLE, h1]
  · by_cases h2 : s1 = s2
    · subst h2
      by_cases h3 : i1 < i2
      · simp [natListLE, h1, h3]
        omega
      · by_cases h4 : i1 = i2
        · subst h4
          simp [natListLE, h1, h3]
        · simp [natListLE, h1, h3, h4]
          omega
    · simp [natListLE, h1, h2]

namespace InspectCleanRaw

theorem rowLe_total (p q : Nat × Row) : rowLe p q = true ∨ rowLe q p = true :=
  natListLE_total (sortEnc p) (sortEnc q)

theorem rowLe_trans {p q r : Nat × Row} (h1 : rowLe p q = true)
    (h2 : rowLe q r = true) : rowLe p r = true :=
  natListLE_trans h1 h2

theorem rowLe_same_key {p q : Nat × Row} (hk : key p.2 = key q.2) :
    rowLe p q = true ↔
      (nnScore p.2 < nnScore q.2 ∨ (nnScore p.2 = nnScore q.2 ∧ p.1 ≤ q.1)) := by
  unfold rowLe sortEnc
  rw [hk, natListLE_append_same, natListLE_pair]

theorem rowLe_strict {p q : Nat × Row} (hk : key p.2 = key q.2) (hne : p.1 ≠ q.1)
    (h : rowLe p q = true) :
    nnScore p.2 < nnScore q.2 ∨ (nnScore p.2 = nnScore q.2 ∧ p.1 < q.1) := by
  rcases (rowLe_same_key hk).mp h with h1 | ⟨h1, h2⟩
  · exact Or.inl h1
  · exact Or.inr ⟨h1, lt_of_le_of_ne h2 hne⟩

end InspectCleanRaw

theorem enum_nodup {α : Type} (l : List α) : l.enum.Nodup := by
  have h1 : (l.enum.map Prod.fst).Nodup := by
    rw [List.enum_map_fst]; exact List.nodup_range l.length
  exact List.Nodup.of_map Prod.fst h1

theorem enum_fst_inj {α : Type} {l : List α} {p q : Nat × α} (hp : p ∈ l.enum)
    (hq : q ∈ l.enum) (h : p.1 = q.1) : p = q := by
  have h1 : (l.enum.map Prod.fst).Nodup := by
    rw [List.enum_map_fst]; exact List.nodup_range l.length
  exact List.inj_on_of_nodup_map h1 hp hq h

theorem enum_snd_mem {α : Type} {l : List α} {p : Nat × α} (hp : p ∈ l.enum) :
    p.2 ∈ l := by
  have h := List.mem_map_of_mem Prod.snd hp
  rwa [List.enum_map_snd] at h

namespace InspectCleanRaw

theorem mem_keepBestPairs_iff (df : List Row) (p : Nat × Row) :
    p ∈ keepBestPairs df ↔
      p ∈ df.enum ∧ ∀ q ∈ df.enum, key q.2 = key p.2 → q.1 ≠ p.1 →
        (nnScore q.2 < nnScore p.2 ∨ (nnScore q.2 = nnScore p.2 ∧ q.1 < p.1)) := by
  have hperm : (insSort rowLe df.enum).Perm df.enum := insSort_perm rowLe df.enum
  have hpw : List.Pairwise (fun x y => rowLe x y = true) (insSort rowLe df.enum) :=
    insSort_pairwise rowLe_total rowLe_trans df.enum
  constructor
  · intro hp
    obtain ⟨l1, l2, hsplit, hnone⟩ := mem_dropDupKeepLast_iff.mp hp
    have hps : p ∈ insSort rowLe df.enum := by
      rw [hsplit]; exact List.mem_append_right l1 (List.mem_cons_self p l2)
    refine ⟨hperm.mem_iff.mp hps, ?_⟩
    intro q hq hk hne
    have hqs : q ∈ insSort rowLe df.enum := hperm.mem_iff.mpr hq
    rw [hsplit] at hqs
    rcases List.mem_append.mp hqs with hq1 | hq2
    · have hle : rowLe q p = true := by
        rw [hsplit] at hpw
        rcases List.pairwise_append.mp hpw with ⟨-, -, hcross⟩
        exact hcross q hq1 p (List.mem_cons_self p l2)
      exact rowLe_strict hk hne hle
    · rcases List.mem_cons.mp hq2 with h1 | h1
      · exact absurd (congrArg Prod.fst h1) hne
      · exact absurd hk (hnone q h1)
  · rintro ⟨hpmem, hmax⟩
    have hps : p ∈ insSort rowLe df.enum := hperm.mem_iff.mpr hpmem
    obtain ⟨l1, l2, hsplit⟩ := List.append_of_mem hps
    refine mem_dropDupKeepLast_iff.mpr ⟨l1, l2, hsplit, ?_⟩
    intro q hq hkq
    have hqs : q ∈ insSort rowLe df.enum := by
      rw [hsplit]; exact List.mem_append_right l1 (List.mem_cons_of_mem p hq)
    have hqmem : q ∈ df.enum := hperm.mem_iff.mp hqs
    have hlepq : rowLe p q = true := by
      rw [hsplit] at hpw
      rcases List.pairwise_append.mp hpw with ⟨-, hp2, -⟩
      exact (List.pairwise_cons.mp hp2).1 q hq
    by_cases hne : q.1 = p.1
    · have hqp : q = p := enum_fst_inj hqmem hpmem hne
      subst hqp
      have hnd : (insSort rowLe df.enum).Nodup := hperm.nodup_iff.mpr (enum_nodup df)
      rw [hsplit] at hnd
      have hnotin : q ∉ l2 := by
        have h2 := (List.nodup_append.mp hnd).2.1
        exact (List.nodup_cons.mp h2).1
      exact absurd hq hnotin
    · have hstr := hmax q hqmem hkq hne
      have hle2 := rowLe_strict hkq.symm (fun hx => hne hx.symm) hlepq
      rcases hle2 with h1 | ⟨h1, h2⟩ <;> rcases hstr with h3 | ⟨h3, h4⟩ <;> omega

end InspectCleanRaw

theorem hasDupOn_eq_false_iff {α κ : Type} [DecidableEq κ] (keyf : α → κ)
    (l : List α) : hasDupOn keyf l = false ↔ (l.map keyf).Nodup := by
  induction l with
  | nil => simp [hasDupOn]
  | cons b t ih =>
    rw [hasDupOn, Bool.or_eq_false_iff, List.map_cons, List.nodup_cons, ih]
    constructor
    · rintro ⟨h1, h2⟩
      refine ⟨?_, h2⟩
      intro hmem
      have := (anyKey_iff keyf b t).mpr hmem
      rw [this] at h1
      cases h1
    · rintro ⟨h1, h2⟩
      refine ⟨?_, h2⟩
      cases hany : t.any (fun x => decide (keyf x = keyf b)) with
      | false => rfl
      | true => exact absurd ((anyKey_iff keyf b t).mp hany) h1

theorem dropDupKeepLast_eq_self_of_nodup {α κ : Type} [DecidableEq κ]
    {keyf : α → κ} {l : List α} (h : (l.map keyf).Nodup) :
    dropDupKeepLast keyf l = l := by
  induction l with
  | nil => rfl
  | cons b t ih =>
    rw [List.map_cons, List.nodup_cons] at h
    have hany : ¬ t.any (fun x => decide (keyf x = keyf b)) = true := by
      intro hx
      exact h.1 ((anyKey_iff keyf b t).mp hx)
    rw [dropDupKeepLast, if_neg hany, ih h.2]

theorem find?_filter_of_imp {α : Type} (p q : α → Bool) (l : List α)
    (h : ∀ x, p x = true → q x = true) :
    List.find? p (l.filter q) = List.find? p l := by
  induction l with
  | nil => rfl
  | cons a t ih =>
    by_cases hq : q a = true
    · rw [List.filter_cons, if_pos hq]
      by_cases hp : p a = true
      · rw [List.find?_cons_of_pos _ hp, List.find?_cons_of_pos _ hp]
      · rw [List.find?_cons_of_neg _ hp, List.find?_cons_of_neg _ hp]
        exact ih
    · have hp : ¬ p a = true := fun hx => hq (h a hx)
      rw [List.filter_cons, if_neg hq, List.find?_cons_of_neg _ hp]
      exact ih

theorem sum_map_add_nat {κ : Type} (l : List κ) (f g : κ → Nat) :
    (l.map (fun k => f k + g k)).sum = (l.map f).sum + (l.map g).sum := by
  induction l with
  | nil => rfl
  | cons a t ih => simp [ih]; omega

theorem sum_map_indicator_zero {κ : Type} [DecidableEq κ] {x : κ} {ks : List κ}
    (h : x ∉ ks) : (ks.map (fun k => if x == k then 1 else 0)).sum = 0 := by
  induction ks with
  | nil => rfl
  | cons a t ih =>
    have hxa : (x == a) = false := beq_false_of_ne (fun hx => h (hx ▸ List.mem_cons_self a t))
    simp only [List.map_cons, List.sum_cons, hxa]
    rw [ih (fun hx => h (List.mem_cons_of_mem a hx))]
    simp

theorem sum_map_indicator_one {κ : Type} [DecidableEq κ] {x : κ} {ks : List κ}
    (hmem : x ∈ ks) (hnd : ks.Nodup) :
    (ks.map (fun k => if x == k then 1 else 0)).sum = 1 := by
  induction ks with
  | nil => cases hmem
  | cons a t ih =>
    rcases List.nodup_cons.mp hnd with ⟨ha, ht⟩
    rcases List.mem_cons.mp hmem with rfl | hx
    · simp only [List.map_cons, List.sum_cons, beq_self_eq_true, if_pos]
      rw [sum_map_indicator_zero ha]
    · have hxa : (x == a) = false := by
        refine beq_false_of_ne (fun hx2 => ?_)
        rw [hx2] at hx
        exact ha hx
      simp only [List.map_cons, List.sum_cons, hxa]
      rw [ih hx ht]
      simp

theorem sum_count_eq_length {κ : Type} [DecidableEq κ] (ks m : List κ)
    (hnd : ks.Nodup) (hcover : ∀ x ∈ m, x ∈ ks) :
    (ks.map (fun k => m.count k)).sum = m.length := by
  induction m with
  | nil => simp
  | cons x m ih =>
    have hx : x ∈ ks := hcover x (List.mem_cons_self x m)
    have hstep : ks.map (fun k => (x :: m).count k) =
        ks.map (fun k => m.count k + if x == k then 1 else 0) :=
      List.map_congr_left (fun k _ => List.count_cons k x m)
    rw [hstep, sum_map_add_nat, ih (fun y hy => hcover y (List.mem_cons_of_mem x hy)),
      sum_map_indicator_one hx hnd, List.length_cons]

theorem map_comp_snd_enum {α β : Type} (f : α → β) (l : List α) :
    l.enum.map (fun p => f p.2) = l.map f := by
  have h := List.map_map f Prod.snd l.enum
  rw [List.enum_map_snd] at h
  exact h.symm

namespace InspectCleanRaw

theorem dedupFirst_nodup {κ : Type} [DecidableEq κ] (l : List κ) :
    (dedupFirst l).Nodup := by
  have h := nodup_keys_dropDupKeepLast id l.reverse
  rw [List.map_id] at h
  exact List.nodup_reverse.mpr h

theorem mem_dedupFirst {κ : Type} [DecidableEq κ] {l : List κ} {x : κ} :
    x ∈ dedupFirst l ↔ x ∈ l := by
  rw [dedupFirst, List.mem_reverse]
  have h := mem_keys_dropDupKeepLast id l.reverse x
  rw [List.map_id, List.map_id] at h
  rw [h, List.mem_reverse]

end InspectCleanRaw

namespace MergeCorrected

open InspectCleanRaw

theorem append_dedup_eq {base corr : List Row}
    (hb : (base.map key).Nodup) (hc : (corr.map key).Nodup) :
    dropDupKeepLast key (base ++ corr) =
      base.filter (fun r => !(corr.any (fun x => decide (key x = key r)))) ++ corr := by
  induction base with
  | nil =>
    rw [List.nil_append, List.filter_nil, List.nil_append]
    exact dropDupKeepLast_eq_self_of_nodup hc
  | cons b base ih =>
    rw [List.map_cons, List.nodup_cons] at hb
    have hbase : base.any (fun x => decide (key x = key b)) = false := by
      cases hany : base.any (fun x => decide (key x = key b)) with
      | false => rfl
      | true => exact absurd ((anyKey_iff key b base).mp hany) hb.1
    rw [List.cons_append]
    cases hcor : corr.any (fun x => decide (key x = key b)) with
    | true =>
      have hcond : ((base ++ corr).any (fun x => decide (key x = key b))) = true := by
        rw [List.any_append, hbase, hcor]
        rfl
      rw [dropDupKeepLast, if_pos hcond, ih hb.2, List.filter_cons]
      have : (!(corr.any (fun x => decide (key x = key b)))) = false := by
        rw [hcor]; rfl
      rw [this]
      simp
    | false =>
      have hcond : ((base ++ corr).any (fun x => decide (key x = key b))) = false := by
        rw [List.any_append, hbase, hcor]
        rfl
      rw [dropDupKeepLast, if_neg (by rw [hcond]; exact Bool.false_ne_true),
        ih hb.2, List.filter_cons]
      have : (!(corr.any (fun x => decide (key x = key b)))) = true := by
        rw [hcor]; rfl
      rw [this]
      simp

end MergeCorrected

namespace InspectCleanRaw

theorem keep_best_keys_nodup (df : List Row) :
    ((keep_best_non_nulls df).map key).Nodup := by
  rw [keep_best_non_nulls, List.map_map]
  exact nodup_keys_dropDupKeepLast (fun p => key p.2) (insSort rowLe df.enum)

theorem keep_best_count_eq (df : List Row) (k : Key) :
    countKey k ((insSort rowLe df.enum).map (fun p => key p.2)) =
      countKey k (df.map key) := by
  have h : countKey k ((insSort rowLe df.enum).map (fun p : Nat × Row => key p.2)) =
      countKey k (df.enum.map (fun p : Nat × Row => key p.2)) :=
    ((insSort_perm rowLe df.enum).map (fun p : Nat × Row => key p.2)).countP_eq
      (fun x => decide (x = k))
  rw [map_comp_snd_enum key df] at h
  exact h

theorem keep_best_keys_iff (df : List Row) (k : Key) :
    k ∈ (keep_best_non_nulls df).map key ↔ k ∈ df.map key := by
  have h1 : k ∈ (keep_best_non_nulls df).map key ↔
      k ∈ (insSort rowLe df.enum).map (fun p : Nat × Row => key p.2) := by
    rw [keep_best_non_nulls, List.map_map]
    exact mem_keys_dropDupKeepLast (fun p : Nat × Row => key p.2) (insSort rowLe df.enum) k
  have h2 : k ∈ (insSort rowLe df.enum).map (fun p : Nat × Row => key p.2) ↔
      k ∈ df.enum.map (fun p : Nat × Row => key p.2) :=
    ((insSort_perm rowLe df.enum).map (fun p : Nat × Row => key p.2)).mem_iff
  rw [map_comp_snd_enum key df] at h2
  exact h1.trans h2

theorem keep_best_unique_mem {df : List Row} {r : Row} (hr : r ∈ df)
    (hcount : countKey (key r) (df.map key) = 1) : r ∈ keep_best_non_nulls df := by
  rw [← List.enum_map_snd df] at hr
  obtain ⟨p, hp, hp2⟩ := List.mem_map.mp hr
  have hps : p ∈ insSort rowLe df.enum := (insSort_perm rowLe df.enum).mem_iff.mpr hp
  have hcnt : countKey (key p.2) ((insSort rowLe df.enum).map (fun p : Nat × Row => key p.2)) = 1 := by
    rw [keep_best_count_eq df (key p.2), hp2]
    exact hcount
  have hmem := @mem_dropDupKeepLast_of_unique (Nat × Row) Key _
    (fun q : Nat × Row => key q.2) (insSort rowLe df.enum) p hps hcnt
  rw [keep_best_non_nulls, keepBestPairs]
  exact hp2 ▸ List.mem_map_of_mem Prod.snd hmem

theorem dedup_strategy_eval (df : List Row) (ds s : String)
    (h : hasDupKeys df = true) :
    deduplicate_by_strategy df ds s =
      if s = "error" then Except.error (dupErrorMsg ds)
      else if s = "keep_last" then Except.ok (dropDupKeepLast key df)
      else if s = "keep_best_non_nulls" then Except.ok (keep_best_non_nulls df)
      else Except.error ("Unknown DEDUP_STRATEGY: " ++ s) := by
  unfold deduplicate_by_strategy
  rw [h]
  simp

theorem dedup_strategy_no_dups (df : List Row) (ds s : String)
    (h : hasDupKeys df = false) :
    deduplicate_by_strategy df ds s = Except.ok df := by
  unfold deduplicate_by_strategy
  rw [h]
  simp

theorem hasDupKeys_eq_false_iff (df : List Row) :
    hasDupKeys df = false ↔ (df.map key).Nodup :=
  hasDupOn_eq_false_iff key df

theorem report_perm (df : List Row) :
    (duplicate_key_report df).Perm
      ((dedupFirst ((dupRowsValid df).map key)).map
        (fun k => (k, countKey k ((dupRowsValid df).map key)))) := by
  unfold duplicate_key_report
  exact insSort_perm (fun a b : Key × Nat => decide (b.2 ≤ a.2))
    ((dedupFirst ((dupRowsValid df).map key)).map
      (fun k => (k, countKey k ((dupRowsValid df).map key))))

theorem report_fst_nodup (df : List Row) :
    ((duplicate_key_report df).map Prod.fst).Nodup := by
  have hm : ((dedupFirst ((dupRowsValid df).map key)).map
      (fun k => (k, countKey k ((dupRowsValid df).map key)))).map Prod.fst =
      dedupFirst ((dupRowsValid df).map key) := by
    rw [List.map_map]
    have h2 : List.map (Prod.fst ∘ fun k => (k, countKey k ((dupRowsValid df).map key)))
        (dedupFirst ((dupRowsValid df).map key)) =
        List.map id (dedupFirst ((dupRowsValid df).map key)) :=
      List.map_congr_left (fun k _ => rfl)
    rw [h2, List.map_id]
  have hp := (report_perm df).map Prod.fst
  rw [hm] at hp
  exact hp.nodup_iff.mpr (dedupFirst_nodup ((dupRowsValid df).map key))

theorem mem_dupRowsValid_na {df : List Row} {r : Row} (hr : r ∈ dupRowsValid df) :
    keyHasNa (key r) = false := by
  have h := (List.mem_filter.mp hr).2
  simpa using h

theorem report_groups (df : List Row) :
    ∀ g ∈ duplicate_key_report df, keyHasNa g.1 = false ∧
      g.2 = countKey g.1 ((dupRowsValid df).map key) := by
  intro g hg
  have hg2 := (report_perm df).mem_iff.mp hg
  obtain ⟨k, hk, hk2⟩ := List.mem_map.mp hg2
  have hks : k ∈ (dupRowsValid df).map key := mem_dedupFirst.mp hk
  obtain ⟨r, hr, hr2⟩ := List.mem_map.mp hks
  constructor
  · rw [← hk2]
    show keyHasNa k = false
    rw [← hr2]
    exact mem_dupRowsValid_na hr
  · rw [← hk2]

theorem report_complete (df : List Row) :
    ∀ r ∈ dupRows df, keyHasNa (key r) = false →
      key r ∈ (duplicate_key_report df).map Prod.fst := by
  intro r hr hna
  have hrv : r ∈ dupRowsValid df := by
    rw [dupRowsValid, List.mem_filter]
    exact ⟨hr, by simp [hna]⟩
  have hk : key r ∈ (dupRowsValid df).map key := List.mem_map_of_mem key hrv
  have hk2 : key r ∈ dedupFirst ((dupRowsValid df).map key) := mem_dedupFirst.mpr hk
  have hk3 := List.mem_map_of_mem
    (fun k => (k, countKey k ((dupRowsValid df).map key))) hk2
  have hk4 := (report_perm df).mem_iff.mpr hk3
  exact List.mem_map_of_mem Prod.fst hk4

theorem report_sum (df : List Row) :
    ((duplicate_key_report df).map Prod.snd).sum = (dupRowsValid df).length := by
  have hp := ((report_perm df).map Prod.snd).sum_eq
  have hm : ((dedupFirst ((dupRowsValid df).map key)).map
      (fun k => (k, countKey k ((dupRowsValid df).map key)))).map Prod.snd =
      (dedupFirst ((dupRowsValid df).map key)).map
        (fun k => countKey k ((dupRowsValid df).map key)) := by
    rw [List.map_map]
    rfl
  rw [hm] at hp
  have hs : ((dedupFirst ((dupRowsValid df).map key)).map
      (fun k => countKey k ((dupRowsValid df).map key))).sum =
      ((dupRowsValid df).map key).length :=
    sum_count_eq_length (dedupFirst ((dupRowsValid df).map key))
      ((dupRowsValid df).map key)
      (dedupFirst_nodup ((dupRowsValid df).map key))
      (fun x hx => mem_dedupFirst.mpr hx)
  rw [hp, hs, List.length_map]

end InspectCleanRaw

theorem filter_rule_cons (pr : (Row → Bool) × String) (rs : List ((Row → Bool) × String))
    (r : Row) :
    (((pr :: rs).filter (fun q => q.1 r)).map Prod.snd) =
      (if pr.1 r then [pr.2] else []) ++ ((rs.filter (fun q => q.1 r)).map Prod.snd) := by
  by_cases h : pr.1 r = true
  · simp [List.filter_cons, h]
  · simp [List.filter_cons, h]

/-- C9: `flag_missing_critical_fields` never drops a record — the flagged
dataset has the same number of records and every field other than the
appended `data_issues` annotation is unchanged. -/
theorem claim_C9_flagger_non_destructive (df : List Row) :
    (GlobalQC.flag_missing_critical_fields df).length = df.length ∧
    (GlobalQC.flag_missing_critical_fields df).map Prod.fst = df := by
  constructor
  · rw [GlobalQC.flag_missing_critical_fields, List.length_map]
  · rw [GlobalQC.flag_missing_critical_fields, List.map_map]
    have h : List.map (Prod.fst ∘ fun r : Row =>
        (r, if GlobalQC.rowIssues r = [] then none else some (GlobalQC.rowIssues r))) df =
        List.map id df :=
      List.map_congr_left (fun a _ => rfl)
    rw [h, List.map_id]

/-- C8: for every record the flagger's issue list is exactly the issue
codes of the triggered rules of the fixed 13-rule table, in rule order;
every reported code is one of the 13 rule codes (none mentions a meal
waiver); and the spec's scenario record — missing only `clock_out`, both
lunch fields absent — gets exactly the single issue "missing clock_out". -/
theorem claim_C8_flagger_rules (r : Row) :
    GlobalQC.rowIssues r = ((GlobalQC.specRules.filter (fun q => q.1 r)).map Prod.snd) ∧
    (∀ s ∈ GlobalQC.rowIssues r, s ∈ GlobalQC.specRules.map Prod.snd) ∧
    GlobalQC.rowIssues scenarioRow = ["missing clock_out"] := by
  have h1 : GlobalQC.rowIssues r =
      ((GlobalQC.specRules.filter (fun q => q.1 r)).map Prod.snd) := by
    rw [GlobalQC.specRules]
    simp only [filter_rule_cons, List.filter_nil, List.map_nil, List.append_nil]
    simp only [GlobalQC.rowIssues, List.append_assoc]
  refine ⟨h1, ?_, by decide⟩
  intro s hs
  rw [h1] at hs
  obtain ⟨pr, hpr, hpr2⟩ := List.mem_map.mp hs
  exact hpr2 ▸ List.mem_map_of_mem Prod.snd (List.mem_of_mem_filter hpr)

/-- C7: the normalization stage (text standardization of the configured
categorical columns followed by key normalization of employee_id, date and
clock_in) is idempotent on every record. -/
theorem claim_C7_normalization_idempotent (r : Row) :
    InspectCleanRaw.normalizeRecord (InspectCleanRaw.normalizeRecord r) =
      InspectCleanRaw.normalizeRecord r := by
  unfold InspectCleanRaw.normalizeRecord InspectCleanRaw.normalize_key_columns
    InspectCleanRaw.standardize_text_columns
  dsimp only
  simp only [Row.mk.injEq]
  refine ⟨InspectCleanRaw.normEmployeeId_idem r.employee_id,
    InspectCleanRaw.normalizeDateVal_idem r.date,
    InspectCleanRaw.floorMinuteVal_idem r.clock_in,
    trivial, trivial, trivial, trivial, trivial, trivial, trivial, trivial,
    trivial, trivial, trivial,
    InspectCleanRaw.stdTextVal_idem InspectCleanRaw.employmentStatusMap
      InspectCleanRaw.employmentStatusMap_canon r.employment_status,
    InspectCleanRaw.stdTextVal_idem InspectCleanRaw.exemptStatusMap
      InspectCleanRaw.exemptStatusMap_canon r.exempt_status,
    trivial⟩

/-- C10 (counterexample): the claim that both key normalizations compute
the same function fails on a record with a missing employee_id — the
cleaning pipeline's `.astype(str)` stringifies the missing value to
"nan" and uppercases it to "NAN", while the correction merger's
`.astype("string")` keeps it missing. -/
theorem claim_C10_counterexample :
    (InspectCleanRaw.normalize_key_columns emptyRow).employee_id = some (strLit "NAN") ∧
    (MergeCorrected.normalize_key_columns emptyRow).employee_id = none := by
  constructor
  · decide
  · rfl

/-- C10 (amended): the two key normalizations agree on `date` and
`clock_in` for every record, and agree on `employee_id` for every record
whose employee_id is present; they differ only on missing employee_id
(the cleaning pipeline produces the literal string "NAN", the merger
keeps the value missing). -/
theorem claim_C10_key_normalizers_amended (r : Row) :
    (InspectCleanRaw.normalize_key_columns r).date =
      (MergeCorrected.normalize_key_columns r).date ∧
    (InspectCleanRaw.normalize_key_columns r).clock_in =
      (MergeCorrected.normalize_key_columns r).clock_in ∧
    (∀ s, r.employee_id = some s →
      (InspectCleanRaw.normalize_key_columns r).employee_id =
        (MergeCorrected.normalize_key_columns r).employee_id) := by
  refine ⟨rfl, rfl, ?_⟩
  intro s hs
  show some (List.map pyUpperChar (pyStrip (InspectCleanRaw.astypeStr r.employee_id))) =
    Option.map (fun s => List.map pyUpperChar (pyStrip s)) r.employee_id
  rw [hs]
  rfl

theorem claim_C10_witness :
    (InspectCleanRaw.normalize_key_columns rowE1).employee_id =
      (MergeCorrected.normalize_key_columns rowE1).employee_id :=
  (claim_C10_key_normalizers_amended rowE1).2.2 (strLit "e1") rfl

/-- C4 (counterexample): the claim that an unrecognized policy identifier
fails on every dataset is false — on a duplicate-free dataset the
operation returns the dataset before ever examining the policy string. -/
theorem claim_C4_counterexample :
    InspectCleanRaw.deduplicate_by_strategy [rowA] "RAW" "not_a_strategy" =
      Except.ok [rowA] := rfl

/-- C4 (amended): an unrecognized policy identifier raises the
configuration error only when the dataset has at least one duplicate-key
group; a duplicate-free dataset is returned unchanged with the policy
never validated. -/
theorem claim_C4_unknown_policy_amended (df : List Row) (ds s : String)
    (h1 : ¬ s = "error") (h2 : ¬ s = "keep_last")
    (h3 : ¬ s = "keep_best_non_nulls") :
    InspectCleanRaw.deduplicate_by_strategy df ds s =
      if InspectCleanRaw.hasDupKeys df then
        Except.error ("Unknown DEDUP_STRATEGY: " ++ s)
      else Except.ok df := by
  cases hd : InspectCleanRaw.hasDupKeys df with
  | false =>
    rw [InspectCleanRaw.dedup_strategy_no_dups df ds s hd]
    rfl
  | true =>
    rw [InspectCleanRaw.dedup_strategy_eval df ds s hd, if_neg h1, if_neg h2, if_neg h3]
    rfl

theorem claim_C4_witness :
    InspectCleanRaw.deduplicate_by_strategy [rowA, rowA] "RAW" "not_a_strategy" =
      Except.error ("Unknown DEDUP_STRATEGY: " ++ "not_a_strategy") := by
  rw [claim_C4_unknown_policy_amended [rowA, rowA] "RAW" "not_a_strategy"
    (by decide) (by decide) (by decide)]
  rfl

/-- C6: under the `error` policy the operation raises exactly when the
dataset has a duplicate-key group (`hasDupKeys` is the negation of
key-Nodup), and a duplicate-free dataset is returned unchanged; the
embedding is pure, so the input dataset is never altered and no resolved
output accompanies the error. -/
theorem claim_C6_error_policy (df : List Row) (ds : String) :
    (InspectCleanRaw.hasDupKeys df = true ↔ ¬ (df.map InspectCleanRaw.key).Nodup) ∧
    InspectCleanRaw.deduplicate_by_strategy df ds "error" =
      (if InspectCleanRaw.hasDupKeys df then
        Except.error (InspectCleanRaw.dupErrorMsg ds)
      else Except.ok df) := by
  constructor
  · constructor
    · intro h hn
      have h2 := (InspectCleanRaw.hasDupKeys_eq_false_iff df).mpr hn
      rw [h2] at h
      cases h
    · intro hn
      cases hb : InspectCleanRaw.hasDupKeys df with
      | true => rfl
      | false => exact absurd ((InspectCleanRaw.hasDupKeys_eq_false_iff df).mp hb) hn
  · cases hd : InspectCleanRaw.hasDupKeys df with
    | false =>
      rw [InspectCleanRaw.dedup_strategy_no_dups df ds "error" hd]
      rfl
    | true =>
      rw [InspectCleanRaw.dedup_strategy_eval df ds "error" hd, if_pos rfl]
      rfl

theorem claim_C6_witness :
    InspectCleanRaw.deduplicate_by_strategy [rowA, rowA] "RAW" "error" =
      Except.error (InspectCleanRaw.dupErrorMsg "RAW") := by
  rw [(claim_C6_error_policy [rowA, rowA] "RAW").2]
  rfl

/-- C2: under `keep_best_non_nulls` a row (tagged with its original
position) survives exactly when every other row of its composite-key
group either has a strictly lower completeness score or ties the score
and arrives earlier — i.e. the survivor is the (score, arrival
position)-maximum of its group, realized by sorting on (key, score,
position) and keeping the last occurrence per key; the returned dataset
is exactly the surviving rows. -/
theorem claim_C2_keep_best_survivor (df : List Row) (p : Nat × Row) :
    (p ∈ InspectCleanRaw.keepBestPairs df ↔
      p ∈ df.enum ∧ ∀ q ∈ df.enum,
        InspectCleanRaw.key q.2 = InspectCleanRaw.key p.2 → q.1 ≠ p.1 →
          (InspectCleanRaw.nnScore q.2 < InspectCleanRaw.nnScore p.2 ∨
            (InspectCleanRaw.nnScore q.2 = InspectCleanRaw.nnScore p.2 ∧ q.1 < p.1))) ∧
    InspectCleanRaw.keep_best_non_nulls df =
      (InspectCleanRaw.keepBestPairs df).map Prod.snd :=
  ⟨InspectCleanRaw.mem_keepBestPairs_iff df p, rfl⟩

theorem claim_C2_witness : (0, rowA) ∈ InspectCleanRaw.keepBestPairs [rowA] := by
  have h := (claim_C2_keep_best_survivor [rowA] (0, rowA)).1
  exact h.mpr (by decide)

/-- C3: under `keep_last` or `keep_best_non_nulls` the resolver succeeds
and returns a dataset with exactly one record per composite key occurring
in the input (key set preserved, keys duplicate-free), in which every
record whose key is not duplicated in the input appears unchanged. -/
theorem claim_C3_resolver_cardinality (df : List Row) (ds s : String)
    (h : s = "keep_last" ∨ s = "keep_best_non_nulls") :
    ∃ out, InspectCleanRaw.deduplicate_by_strategy df ds s = Except.ok out ∧
      (out.map InspectCleanRaw.key).Nodup ∧
      (∀ k, k ∈ out.map InspectCleanRaw.key ↔ k ∈ df.map InspectCleanRaw.key) ∧
      (∀ r ∈ df, InspectCleanRaw.countKey (InspectCleanRaw.key r)
        (df.map InspectCleanRaw.key) = 1 → r ∈ out) := by
  cases hd : InspectCleanRaw.hasDupKeys df with
  | false =>
    refine ⟨df, InspectCleanRaw.dedup_strategy_no_dups df ds s hd, ?_,
      fun k => Iff.rfl, fun r hr _ => hr⟩
    exact (InspectCleanRaw.hasDupKeys_eq_false_iff df).mp hd
  | true =>
    rcases h with rfl | rfl
    · refine ⟨dropDupKeepLast InspectCleanRaw.key df, ?_,
        nodup_keys_dropDupKeepLast InspectCleanRaw.key df,
        fun k => mem_keys_dropDupKeepLast InspectCleanRaw.key df k, ?_⟩
      · rw [InspectCleanRaw.dedup_strategy_eval df ds "keep_last" hd,
          if_neg (by decide), if_pos rfl]
      · intro r hr hc
        exact @mem_dropDupKeepLast_of_unique Row InspectCleanRaw.Key _
          InspectCleanRaw.key df r hr hc
    · refine ⟨InspectCleanRaw.keep_best_non_nulls df, ?_,
        InspectCleanRaw.keep_best_keys_nodup df,
        fun k => InspectCleanRaw.keep_best_keys_iff df k,
        fun r hr hc => InspectCleanRaw.keep_best_unique_mem hr hc⟩
      rw [InspectCleanRaw.dedup_strategy_eval df ds "keep_best_non_nulls" hd,
        if_neg (by decide), if_neg (by decide), if_pos rfl]

theorem claim_C3_witness :
    ∃ out, InspectCleanRaw.deduplicate_by_strategy [rowA, rowA, rowB] "RAW" "keep_last" =
        Except.ok out ∧
      (out.map InspectCleanRaw.key).Nodup ∧
      (∀ k, k ∈ out.map InspectCleanRaw.key ↔
        k ∈ ([rowA, rowA, rowB].map InspectCleanRaw.key)) ∧
      (∀ r ∈ [rowA, rowA, rowB], InspectCleanRaw.countKey (InspectCleanRaw.key r)
        ([rowA, rowA, rowB].map InspectCleanRaw.key) = 1 → r ∈ out) :=
  claim_C3_resolver_cardinality [rowA, rowA, rowB] "RAW" "keep_last" (Or.inl rfl)

/-- C5 (counterexample): two records whose key components are all null
form a duplicate group (both rows are duplicate-key rows), yet the audit
report contains no group at all — `value_counts` silently drops rows with
null key components, contradicting the claim that such records appear as
a group in the report. -/
theorem claim_C5_counterexample :
    InspectCleanRaw.duplicate_key_report [emptyRow, emptyRow] = [] ∧
    InspectCleanRaw.dupRows [emptyRow, emptyRow] = [emptyRow, emptyRow] := by
  constructor
  · rfl
  · rfl

/-- C5 (amended): the audit report accounts exactly once for every
duplicate-key record whose key components are all non-null: the reported
keys are pairwise distinct and non-null, each group carries the
multiplicity of its key among those records, every such record's key is
reported, and the group counts sum to the number of those records.
Duplicate-key records with a null key component are excluded from the
reported groups. -/
theorem claim_C5_report_amended (df : List Row) :
    ((InspectCleanRaw.duplicate_key_report df).map Prod.fst).Nodup ∧
    (∀ g ∈ InspectCleanRaw.duplicate_key_report df,
      InspectCleanRaw.keyHasNa g.1 = false ∧
      g.2 = InspectCleanRaw.countKey g.1
        ((InspectCleanRaw.dupRowsValid df).map InspectCleanRaw.key)) ∧
    (∀ r ∈ InspectCleanRaw.dupRows df,
      InspectCleanRaw.keyHasNa (InspectCleanRaw.key r) = false →
      InspectCleanRaw.key r ∈ (InspectCleanRaw.duplicate_key_report df).map Prod.fst) ∧
    ((InspectCleanRaw.duplicate_key_report df).map Prod.snd).sum =
      (InspectCleanRaw.dupRowsValid df).length :=
  ⟨InspectCleanRaw.report_fst_nodup df, InspectCleanRaw.report_groups df,
    InspectCleanRaw.report_complete df, InspectCleanRaw.report_sum df⟩

theorem claim_C5_witness :
    ((InspectCleanRaw.duplicate_key_report [rowA, rowA]).map Prod.snd).sum =
      (InspectCleanRaw.dupRowsValid [rowA, rowA]).length :=
  (claim_C5_report_amended [rowA, rowA]).2.2.2

/-- C1: merging a base dataset with a correction dataset, both with
unique composite keys, yields a dataset with exactly one record per key
in which lookup by key returns the correction's record when the key is
present there and the base's record otherwise — override semantics. -/
theorem claim_C1_merge_override (base corr : List Row)
    (hb : (base.map InspectCleanRaw.key).Nodup)
    (hc : (corr.map InspectCleanRaw.key).Nodup) :
    ((MergeCorrected.append_and_deduplicate base corr).map InspectCleanRaw.key).Nodup ∧
    (∀ k, MergeCorrected.lookupKey (MergeCorrected.append_and_deduplicate base corr) k =
      (MergeCorrected.lookupKey corr k).or (MergeCorrected.lookupKey base k)) := by
  have heq : MergeCorrected.append_and_deduplicate base corr =
      base.filter (fun r => !(corr.any
        (fun x => decide (InspectCleanRaw.key x = InspectCleanRaw.key r)))) ++ corr :=
    MergeCorrected.append_dedup_eq hb hc
  constructor
  · rw [heq, List.map_append, List.nodup_append]
    refine ⟨List.Nodup.sublist ((List.filter_sublist base).map InspectCleanRaw.key) hb,
      hc, ?_⟩
    intro a ha hacorr
    obtain ⟨x, hx, hx2⟩ := List.mem_map.mp ha
    have hfil := (List.mem_filter.mp hx).2
    rw [← hx2] at hacorr
    have hany := (anyKey_iff InspectCleanRaw.key x corr).mpr hacorr
    rw [hany] at hfil
    simp at hfil
  · intro k
    rcases hf : MergeCorrected.lookupKey corr k with _ | r
    · have hf2 : List.find? (fun q => decide (InspectCleanRaw.key q = k)) corr = none := hf
      have hnone := List.find?_eq_none.mp hf2
      rw [Option.none_or, MergeCorrected.lookupKey, heq, List.find?_append]
      have hfil : List.find? (fun q => decide (InspectCleanRaw.key q = k))
          (base.filter (fun r => !(corr.any
            (fun x => decide (InspectCleanRaw.key x = InspectCleanRaw.key r))))) =
          List.find? (fun q => decide (InspectCleanRaw.key q = k)) base := by
        apply find?_filter_of_imp
        intro x hx
        have hkx : InspectCleanRaw.key x = k := of_decide_eq_true hx
        cases hany : corr.any
            (fun c => decide (InspectCleanRaw.key c = InspectCleanRaw.key x)) with
        | false => rfl
        | true =>
          have hmem := (anyKey_iff InspectCleanRaw.key x corr).mp hany
          obtain ⟨c, hc2, hc3⟩ := List.mem_map.mp hmem
          have hck : InspectCleanRaw.key c = k := by rw [hc3, hkx]
          exact absurd (decide_eq_true hck) (hnone c hc2)
      rw [hfil, hf2, Option.or_none]
      rfl
    · have hf2 : List.find? (fun q => decide (InspectCleanRaw.key q = k)) corr = some r := hf
      have hp0 := List.find?_some hf2
      have hkr : InspectCleanRaw.key r = k := of_decide_eq_true hp0
      have hrc : r ∈ corr := List.mem_of_find?_eq_some hf2
      rw [MergeCorrected.lookupKey, heq, List.find?_append]
      have hfilnone : List.find? (fun q => decide (InspectCleanRaw.key q = k))
          (base.filter (fun r => !(corr.any
            (fun x => decide (InspectCleanRaw.key x = InspectCleanRaw.key r))))) = none := by
        apply List.find?_eq_none.mpr
        intro x hx hpx
        have hkx : InspectCleanRaw.key x = k := of_decide_eq_true hpx
        have hfilx := (List.mem_filter.mp hx).2
        have hmem : InspectCleanRaw.key x ∈ corr.map InspectCleanRaw.key := by
          rw [hkx, ← hkr]
          exact List.mem_map_of_mem InspectCleanRaw.key hrc
        have hany := (anyKey_iff InspectCleanRaw.key x corr).mpr hmem
        rw [hany] at hfilx
        simp at hfilx
      rw [hfilnone, Option.none_or]
      exact hf2

theorem claim_C1_witness :
    ((MergeCorrected.append_and_deduplicate [rowA, rowB] [rowB2, rowC]).map
      InspectCleanRaw.key).Nodup ∧
    (∀ k, MergeCorrected.lookupKey
        (MergeCorrected.append_and_deduplicate [rowA, rowB] [rowB2, rowC]) k =
      (MergeCorrected.lookupKey [rowB2, rowC] k).or
        (MergeCorrected.lookupKey [rowA, rowB] k)) :=
  claim_C1_merge_override [rowA, rowB] [rowB2, rowC] (by decide) (by decide)
